import Mathlib

/-!
Verification of the multi-tier cache implemented in
`src/india_politics_agent/utils/cache.py`: the in-memory LocalStore
(`MemoryCache`), the tiered store (`HybridCache`), and `CacheManager`
(statistics and key derivation).

Modelling conventions:
* A stored Python value is `Option α`; `none` models the Python value `None`
  (Python's `get` returns `None` both for an absent key and for a stored
  `None`, which the flattened `Option α` result reproduces exactly).
* `datetime.now()` is an explicit `now : Nat` argument (seconds); the
  `datetime.now() + timedelta(seconds=ttl)` expiry becomes `now + ttl`.
* `len(pickle.dumps(value))` is an arbitrary size function
  `sz : Option α → Nat` (pickling is deterministic, so the same value always
  has the same serialized size).
-/

set_option maxRecDepth 100000

namespace Cache

/-- One key of the Python dict `MemoryCache.self.cache` together with its
stored value and the absolute expiry timestamp held for the same key in the
parallel dict `self.expiry`. Every code path (`set`, `delete`, `clear`)
inserts and removes the two dicts' keys together, so the pair of dicts is
modelled as a single insertion-ordered association list. -/
structure Entry (α : Type) where
  key : String
  val : Option α
  exp : Nat
deriving DecidableEq

/-- State of `MemoryCache` (cache.py lines 52-118): the insertion-ordered dict
contents, the byte capacity `max_size_bytes`, and the running byte total
`current_size`. `current_size` is an `Int` so that its non-negativity is a
provable property of the code instead of a typing accident. -/
structure MemoryCache (α : Type) where
  cache : List (Entry α)
  max_size_bytes : Nat
  current_size : Int
deriving DecidableEq

/-- `MemoryCache.__init__(max_size_mb)`: empty dicts, capacity
`max_size_mb * 1024 * 1024` bytes, `current_size = 0`. -/
def MemoryCache.init (α : Type) (max_size_mb : Nat) : MemoryCache α :=
  ⟨[], max_size_mb * 1024 * 1024, 0⟩

namespace MemoryCache

variable {α : Type}

/-- Python `key in self.cache` / `self.cache[key]` lookup: the (unique) entry
with the given key, if any. -/
def find (c : MemoryCache α) (k : String) : Option (Entry α) :=
  c.cache.find? (fun e => e.key == k)

/-- `MemoryCache._is_expired` (lines 61-65): `True` when the key is absent
from `self.expiry`, otherwise `datetime.now() > self.expiry[key]` (strict). -/
def is_expired (c : MemoryCache α) (now : Nat) (k : String) : Bool :=
  match c.find k with
  | none => true
  | some e => decide (e.exp < now)

/-- `MemoryCache.delete` (lines 97-107): if the key is present, recompute the
pickled size of the currently stored value, subtract it from `current_size`,
and remove the key from both dicts; otherwise do nothing. -/
def delete (sz : Option α → Nat) (c : MemoryCache α) (k : String) : MemoryCache α :=
  match c.find k with
  | some e =>
    { c with
      cache := c.cache.filter (fun e' => !(e'.key == k)),
      current_size := c.current_size - (sz e.val : Int) }
  | none => c

/-- The `while` loop of `MemoryCache._evict_if_needed` (lines 67-72), written
with explicit fuel so that it is structurally recursive and evaluates inside
the kernel: while `current_size + new_size > max_size_bytes` and the dict is
non-empty, delete the first (oldest-inserted) key. Each iteration removes at
least the head entry, so `c.cache.length` iterations always suffice to reach
an empty dict, at which point the loop guard fails. -/
def evict_fuel (sz : Option α → Nat) : Nat → MemoryCache α → Nat → MemoryCache α
  | 0, c, _ => c
  | fuel + 1, c, new_size =>
    match c.cache with
    | [] => c
    | oldest :: _ =>
      if (c.max_size_bytes : Int) < c.current_size + (new_size : Int) then
        evict_fuel sz fuel (c.delete sz oldest.key) new_size
      else c

/-- `MemoryCache._evict_if_needed(new_size)` (lines 67-72). -/
def evict_if_needed (sz : Option α → Nat) (c : MemoryCache α) (new_size : Nat) :
    MemoryCache α :=
  evict_fuel sz c.cache.length c new_size

/-- Python dict assignment `d[key] = value` for both dicts at once: if the key
is already present, the value is replaced at the key's existing
insertion-order position (CPython dicts keep the original position on
overwrite); otherwise the new key is appended at the end. -/
def dict_set : List (Entry α) → String → Option α → Nat → List (Entry α)
  | [], k, v, e => [⟨k, v, e⟩]
  | x :: xs, k, v, e =>
    if x.key == k then ⟨k, v, e⟩ :: xs else x :: dict_set xs k v e

/-- `MemoryCache.set` (lines 82-95): compute the pickled size, evict if
needed, store value and expiry, and add the new size to `current_size`
(note: the code never subtracts the size of an entry that the assignment
overwrites). The Python default for `ttl` is 3600. -/
def set (sz : Option α → Nat) (c : MemoryCache α) (now : Nat) (k : String)
    (v : Option α) (ttl : Nat) : MemoryCache α :=
  let size := sz v
  let c1 := c.evict_if_needed sz size
  { c1 with
    cache := dict_set c1.cache k v (now + ttl),
    current_size := c1.current_size + (size : Int) }

/-- `MemoryCache.get` (lines 74-80): absent key leaves the state unchanged and
returns `None`; a present expired key is deleted and `None` is returned; a
present unexpired key returns the stored value. -/
def get (sz : Option α → Nat) (c : MemoryCache α) (now : Nat) (k : String) :
    Option α × MemoryCache α :=
  match c.find k with
  | none => (none, c)
  | some e =>
    if c.is_expired now k then (none, c.delete sz k) else (e.val, c)

/-- `MemoryCache.clear` (lines 109-114): both dicts emptied, size reset. -/
def clear (c : MemoryCache α) : MemoryCache α :=
  { c with cache := [], current_size := 0 }

/-- `MemoryCache.exists` (lines 116-118): present and not expired. -/
def exists' (c : MemoryCache α) (now : Nat) (k : String) : Bool :=
  (c.find k).isSome && !(c.is_expired now k)

/-- Sum of the serialized sizes of the currently stored entries: the quantity
the spec says `current_size` must track. -/
def occupied (sz : Option α → Nat) (c : MemoryCache α) : Nat :=
  (c.cache.map (fun e => sz e.val)).sum

end MemoryCache

/-- One public `MemoryCache` operation together with the wall-clock time at
which it is issued. -/
inductive Op (α : Type) where
  | set (now : Nat) (k : String) (v : Option α) (ttl : Nat)
  | get (now : Nat) (k : String)
  | del (k : String)
  | clear
deriving DecidableEq

/-- State transition of one `MemoryCache` operation (the state `get` leaves
behind includes its lazy expiry removal). -/
def MemoryCache.step (sz : Option α → Nat) (c : MemoryCache α) : Op α → MemoryCache α
  | .set now k v ttl => c.set sz now k v ttl
  | .get now k => (c.get sz now k).2
  | .del k => c.delete sz k
  | .clear => c.clear

/-- Run a sequence of operations left to right. -/
def MemoryCache.run (sz : Option α → Nat) (c : MemoryCache α) (ops : List (Op α)) :
    MemoryCache α :=
  ops.foldl (MemoryCache.step sz) c

/-- The size-accounting invariant of reachable `MemoryCache` states: the dict
keys are distinct (they are keys of a Python dict) and `current_size` is at
least the sum of the stored entries' sizes. (Plain equality is not preserved:
`set` on an existing key adds the new size without removing the old one.) -/
def MemoryCache.Inv (sz : Option α → Nat) (c : MemoryCache α) : Prop :=
  (c.cache.map (fun e => e.key)).Nodup ∧ (MemoryCache.occupied sz c : Int) ≤ c.current_size

/-- One key of the external Redis server's keyspace, as `RedisCache` uses it.
Modelled from the spec: the RemoteStore (the Redis server behind the
`redis` client, which is not part of this repository) is a key-value service
holding the pickled value under the prefixed key with the absolute expiry
`now + ttl` set by `setex`; a key is readable while unexpired. Order of
entries is irrelevant on the remote tier (no capacity eviction there). -/
structure RedisEntry (α : Type) where
  key : String
  val : Option α
  exp : Nat
deriving DecidableEq

/-- `RedisCache.get` (lines 140-149): `client.get` returns `None` for an
absent or expired key and the stored bytes otherwise, which `pickle.loads`
turns back into the stored value; the flattened `Option α` result again
conflates a stored Python `None` with absence, exactly as the caller sees. -/
def redis_get {α : Type} (st : List (RedisEntry α)) (now : Nat) (k : String) : Option α :=
  match st.find? (fun e => e.key == k) with
  | some e => if now < e.exp then e.val else none
  | none => none

/-- `RedisCache.set` (lines 151-158): `client.setex(key, ttl, pickle.dumps(value))`,
an upsert of the key with a fresh expiry. -/
def redis_set {α : Type} (st : List (RedisEntry α)) (k : String) (v : Option α)
    (exp : Nat) : List (RedisEntry α) :=
  match st with
  | [] => [⟨k, v, exp⟩]
  | e :: rest => if e.key == k then ⟨k, v, exp⟩ :: rest else e :: redis_set rest k v exp

/-- `RedisCache.exists` (lines 177-183): `client.exists(key) > 0`; an expired
key no longer exists on the server. -/
def redis_exists {α : Type} (st : List (RedisEntry α)) (now : Nat) (k : String) : Bool :=
  match st.find? (fun e => e.key == k) with
  | some e => decide (now < e.exp)
  | none => false

/-- A Python return value that is either a `bool` or `None`. The expression
`self.l1.exists(key) or (self.l2 and self.l2.exists(key))` in
`HybridCache.exists` evaluates to `None` (not `False`) when L1 misses and
`self.l2` is `None`, because Python's `or`/`and` return an operand:
`False or (None and _)` is `None`. -/
inductive PyRet where
  | pyBool (b : Bool)
  | pyNone
deriving DecidableEq

/-- Python truthiness of such a return value: `None` is falsy. -/
def PyRet.truthy : PyRet → Bool
  | .pyBool b => b
  | .pyNone => false

/-- `HybridCache` (lines 186-235): L1 memory cache plus optional L2.
`l2 = none` models `self.l2 = None` (Redis unavailable at construction);
`l2 = some st` models a connected `RedisCache` whose server keyspace is `st`. -/
structure HybridCache (α : Type) where
  l1 : MemoryCache α
  l2 : Option (List (RedisEntry α))
deriving DecidableEq

namespace HybridCache

variable {α : Type}

/-- `HybridCache.get` (lines 198-213): try L1 (with its lazy expiry removal);
on miss try L2 if available, and on an L2 hit repopulate L1 via
`self.l1.set(key, value)` with the default `ttl = 3600`. -/
def get (sz : Option α → Nat) (h : HybridCache α) (now : Nat) (k : String) :
    Option α × HybridCache α :=
  let r1 := h.l1.get sz now k
  match r1.1 with
  | some v => (some v, ⟨r1.2, h.l2⟩)
  | none =>
    match h.l2 with
    | some st =>
      match redis_get st now k with
      | some v => (some v, ⟨(r1.2).set sz now k (some v) 3600, h.l2⟩)
      | none => (none, ⟨r1.2, h.l2⟩)
    | none => (none, ⟨r1.2, h.l2⟩)

/-- `HybridCache.set` (lines 215-219): write to L1 and, if configured, to L2. -/
def set (sz : Option α → Nat) (h : HybridCache α) (now : Nat) (k : String)
    (v : Option α) (ttl : Nat) : HybridCache α :=
  ⟨h.l1.set sz now k v ttl, h.l2.map (fun st => redis_set st k v (now + ttl))⟩

/-- `HybridCache.exists` (lines 233-235): the Python expression
`self.l1.exists(key) or (self.l2 and self.l2.exists(key))` with its
operand-returning `or`/`and` semantics. -/
def exists' (h : HybridCache α) (now : Nat) (k : String) : PyRet :=
  if h.l1.exists' now k then .pyBool true
  else
    match h.l2 with
    | none => .pyNone
    | some st => .pyBool (redis_exists st now k)

end HybridCache

/-- The `self.stats` dict of `CacheManager` (lines 243-248). -/
structure Stats where
  hits : Nat
  misses : Nat
  sets : Nat
  errors : Nat
deriving DecidableEq

namespace CacheManager

/-- `CacheManager.get` (lines 257-271). The wrapped backend call
`self.backend.get(key)` either returns a value (`Except.ok`) or raises
(`Except.error`); the `try/except` is the `Except` case split. A raised
exception is swallowed: `errors` is incremented and `None` returned. An `ok`
result increments `hits` when it `is not None`, else `misses`. -/
def get {α : Type} (result : Except String (Option α)) (s : Stats) : Option α × Stats :=
  match result with
  | .ok (some x) => (some x, { s with hits := s.hits + 1 })
  | .ok none => (none, { s with misses := s.misses + 1 })
  | .error _ => (none, { s with errors := s.errors + 1 })

/-- `CacheManager.set` (lines 273-280): on success increment `sets`; a raised
exception is swallowed and `errors` incremented. -/
def set (result : Except String Unit) (s : Stats) : Stats :=
  match result with
  | .ok _ => { s with sets := s.sets + 1 }
  | .error _ => { s with errors := s.errors + 1 }

end CacheManager

/-- Lexicographic code-point comparison of two character lists: the semantics
of Python string `<`, which `json.dumps(..., sort_keys=True)` uses to order
dict keys. (Mathlib's `LinearOrder Char` compares by code point.) -/
def chars_lt : List Char → List Char → Bool
  | [], [] => false
  | [], _ :: _ => true
  | _ :: _, [] => false
  | a :: as, b :: bs =>
    if a < b then true else if b < a then false else chars_lt as bs

/-- A positional or keyword argument value passed to `CacheManager.create_key`.
The repository only ever passes JSON scalars (strings, integers, booleans,
`None`) as cache-key arguments, so the embedding covers exactly those. -/
inductive PyArg where
  | null
  | bool (b : Bool)
  | int (n : Int)
  | str (s : String)
deriving DecidableEq

/-- Non-strict key order on keyword-argument pairs (`a ≤ b` iff not `b < a`),
the order in which `sort_keys=True` emits dict entries. -/
def key_le (a b : String × PyArg) : Prop := chars_lt b.1.data a.1.data = false

instance key_le_decidable : DecidableRel key_le := fun _ _ => Bool.decEq _ _

/-- The sort that `json.dumps(..., sort_keys=True)` applies to dict items
(Python's sort is a different stable algorithm, but dict keys are distinct, so
every sort by key produces the same list). -/
def sortPairs (l : List (String × PyArg)) : List (String × PyArg) :=
  List.insertionSort key_le l

/-- Lowercase hexadecimal digit. -/
def hex_digit (n : Nat) : Char :=
  if n < 10 then Char.ofNat (48 + n) else Char.ofNat (87 + n)

/-- `d` lowercase hex digits of `n`, most significant first. -/
def hex_chars : Nat → Nat → List Char
  | 0, _ => []
  | d + 1, n => hex_chars d (n / 16) ++ [hex_digit (n % 16)]

/-- `json.dumps` escaping of one character with the default
`ensure_ascii=True`: `"` and `\` get a backslash, the named control escapes
are used for `\n \t \r \b \f`, all other control characters and every
non-ASCII character become `\uXXXX` (with a surrogate pair above U+FFFF). -/
def escape_char (c : Char) : List Char :=
  if c = '"' then ['\\', '"']
  else if c = '\\' then ['\\', '\\']
  else if c = '\n' then ['\\', 'n']
  else if c = '\t' then ['\\', 't']
  else if c = '\r' then ['\\', 'r']
  else if c.toNat = 8 then ['\\', 'b']
  else if c.toNat = 12 then ['\\', 'f']
  else if c.toNat < 32 then '\\' :: 'u' :: hex_chars 4 c.toNat
  else if c.toNat < 127 then [c]
  else if c.toNat < 65536 then '\\' :: 'u' :: hex_chars 4 c.toNat
  else
    '\\' :: 'u' :: hex_chars 4 (55296 + (c.toNat - 65536) / 1024) ++
      '\\' :: 'u' :: hex_chars 4 (56320 + (c.toNat - 65536) % 1024)

/-- A JSON string literal: quoted and escaped. -/
def quote_str (s : String) : String :=
  ⟨'"' :: (s.data.map escape_char).flatten ++ ['"']⟩

/-- JSON rendering of one scalar argument (`json.dumps` defaults). -/
def arg_repr : PyArg → String
  | .null => "null"
  | .bool true => "true"
  | .bool false => "false"
  | .int n => toString n
  | .str s => quote_str s

/-- `", ".flatten`, the default item separator of `json.dumps`. -/
def join_comma : List String → String
  | [] => ""
  | [x] => x
  | x :: y :: rest => x ++ ", " ++ join_comma (y :: rest)

/-- `json.dumps({'args': args, 'kwargs': kwargs}, sort_keys=True)` with the
default separators `", "` and `": "`. The two top-level keys are emitted in
sorted order, which is `"args"` before `"kwargs"`; the keyword dict's items
are emitted sorted by key. -/
def dumps_call (args : List PyArg) (kwargs : List (String × PyArg)) : String :=
  "\x7b\"args\": [" ++ join_comma (args.map arg_repr) ++ "], \"kwargs\": \x7b" ++
    join_comma ((sortPairs kwargs).map
      (fun kv => quote_str kv.1 ++ ": " ++ arg_repr kv.2)) ++ "\x7d\x7d"

/-- UTF-8 encoding of one character (`str.encode()`), as a list of byte
values. -/
def utf8_char (c : Char) : List Nat :=
  let n := c.toNat
  if n < 128 then [n]
  else if n < 2048 then [192 + n / 64, 128 + n % 64]
  else if n < 65536 then [224 + n / 4096, 128 + (n / 64) % 64, 128 + n % 64]
  else [240 + n / 262144, 128 + (n / 4096) % 64, 128 + (n / 64) % 64, 128 + n % 64]

/-- UTF-8 encoding of a string as a list of byte values. -/
def utf8 (s : String) : List Nat := (s.data.map utf8_char).flatten

namespace SHA256

/-- `2 ^ 32`, the word modulus of SHA-256. -/
def M32 : Nat := 4294967296

/-- Right rotation of a 32-bit word by `k` places, in arithmetic form: the low
`k` bits move to the top and the remaining bits shift down (for `x < 2 ^ 32`
this is exactly the bitwise `rotr` of FIPS 180-4). -/
def rot32 (k x : Nat) : Nat := x % 2 ^ k * 2 ^ (32 - k) + x / 2 ^ k

/-- `Σ₀` of FIPS 180-4 (rotations by 2, 13 and 22). -/
def bigS0 (x : Nat) : Nat := Nat.xor (Nat.xor (rot32 2 x) (rot32 13 x)) (rot32 22 x)

/-- `Σ₁` of FIPS 180-4 (rotations by 6, 11 and 25). -/
def bigS1 (x : Nat) : Nat := Nat.xor (Nat.xor (rot32 6 x) (rot32 11 x)) (rot32 25 x)

/-- `σ₀` of FIPS 180-4 (rotations by 7 and 18, shift by 3). -/
def smallS0 (x : Nat) : Nat := Nat.xor (Nat.xor (rot32 7 x) (rot32 18 x)) (x / 2 ^ 3)

/-- `σ₁` of FIPS 180-4 (rotations by 17 and 19, shift by 10). -/
def smallS1 (x : Nat) : Nat := Nat.xor (Nat.xor (rot32 17 x) (rot32 19 x)) (x / 2 ^ 10)

/-- `Ch(x, y, z)`; the complement of `x` within 32 bits is `xor x (2^32 - 1)`. -/
def ch (x y z : Nat) : Nat := Nat.xor (Nat.land x y) (Nat.land (Nat.xor x 4294967295) z)

/-- `Maj(x, y, z)`. -/
def maj (x y z : Nat) : Nat :=
  Nat.xor (Nat.xor (Nat.land x y) (Nat.land x z)) (Nat.land y z)

/-- The 64 round constants of FIPS 180-4, in decimal. -/
def K : List Nat :=
  [1116352408, 1899447441, 3049323471, 3921009573,
   961987163, 1508970993, 2453635748, 2870763221,
   3624381080, 310598401, 607225278, 1426881987,
   1925078388, 2162078206, 2614888103, 3248222580,
   3835390401, 4022224774, 264347078, 604807628,
   770255983, 1249150122, 1555081692, 1996064986,
   2554220882, 2821834349, 2952996808, 3210313671,
   3336571891, 3584528711, 113926993, 338241895,
   666307205, 773529912, 1294757372, 1396182291,
   1695183700, 1986661051, 2177026350, 2456956037,
   2730485921, 2820302411, 3259730800, 3345764771,
   3516065817, 3600352804, 4094571909, 275423344,
   430227734, 506948616, 659060556, 883997877,
   958139571, 1322822218, 1537002063, 1747873779,
   1955562222, 2024104815, 2227730452, 2361852424,
   2428436474, 2756734187, 3204031479, 3329325298]

/-- The eight working registers `a .. h`. -/
structure Regs where
  a : Nat
  b : Nat
  c : Nat
  d : Nat
  e : Nat
  f : Nat
  g : Nat
  h : Nat
deriving DecidableEq

/-- One compression round. -/
def round_fn (r : Regs) (k w : Nat) : Regs :=
  let t1 := (r.h + bigS1 r.e + ch r.e r.f r.g + k + w) % M32
  let t2 := (bigS0 r.a + maj r.a r.b r.c) % M32
  ⟨(t1 + t2) % M32, r.a, r.b, r.c, (r.d + t1) % M32, r.e, r.f, r.g⟩

/-- Big-endian 32-bit words of a byte list (length a multiple of 4). -/
def to_words : List Nat → List Nat
  | b1 :: b2 :: b3 :: b4 :: rest =>
    (((b1 * 256 + b2) * 256 + b3) * 256 + b4) :: to_words rest
  | _ => []

/-- Extend the 16 message-schedule words to 64 (48 extension steps). -/
def extend : Nat → List Nat → List Nat
  | 0, w => w
  | f + 1, w =>
    let n := w.length
    extend f (w ++
      [(smallS1 (w.getD (n - 2) 0) + w.getD (n - 7) 0 +
          smallS0 (w.getD (n - 15) 0) + w.getD (n - 16) 0) % M32])

/-- Compress one 64-byte block into the hash state. -/
def compress (hh : Regs) (block : List Nat) : Regs :=
  let w := extend 48 (to_words block)
  let r := (K.zip w).foldl (fun r kw => round_fn r kw.1 kw.2) hh
  ⟨(hh.a + r.a) % M32, (hh.b + r.b) % M32, (hh.c + r.c) % M32, (hh.d + r.d) % M32,
   (hh.e + r.e) % M32, (hh.f + r.f) % M32, (hh.g + r.g) % M32, (hh.h + r.h) % M32⟩

/-- Big-endian 8-byte encoding of the message bit length. -/
def be8 (n : Nat) : List Nat :=
  [n / 2 ^ 56 % 256, n / 2 ^ 48 % 256, n / 2 ^ 40 % 256, n / 2 ^ 32 % 256,
   n / 2 ^ 24 % 256, n / 2 ^ 16 % 256, n / 2 ^ 8 % 256, n % 256]

/-- FIPS 180-4 padding: `0x80`, zeros to 56 mod 64, then the bit length. -/
def pad (msg : List Nat) : List Nat :=
  msg ++ 128 :: (List.replicate ((64 - (msg.length + 9) % 64) % 64) 0 ++
    be8 (msg.length * 8))

/-- Split a byte list into 64-byte blocks (fuel-driven, structurally
recursive; `l.length` fuel always suffices). -/
def blocks : Nat → List Nat → List (List Nat)
  | 0, _ => []
  | _, [] => []
  | f + 1, l => l.take 64 :: blocks f (l.drop 64)

/-- The initial hash state of FIPS 180-4, in decimal. -/
def init_regs : Regs :=
  ⟨1779033703, 3144134277, 1013904242, 2773480762,
   1359893119, 2600822924, 528734635, 1541459225⟩

/-- SHA-256 of a byte list, as the final eight-word state. -/
def digest (msg : List Nat) : Regs :=
  (blocks (pad msg).length (pad msg)).foldl compress init_regs

/-- `hashlib.sha256(...).hexdigest()`: 64 lowercase hex characters. -/
def hexdigest (msg : List Nat) : String :=
  let r := digest msg
  ⟨hex_chars 8 r.a ++ hex_chars 8 r.b ++ hex_chars 8 r.c ++ hex_chars 8 r.d ++
    hex_chars 8 r.e ++ hex_chars 8 r.f ++ hex_chars 8 r.g ++ hex_chars 8 r.h⟩

end SHA256

/-- `CacheManager.create_key` (lines 250-255): the SHA-256 hex digest of the
sorted-keys JSON rendering of the argument tuple and keyword dict. -/
def CacheManager.create_key (args : List PyArg) (kwargs : List (String × PyArg)) :
    String :=
  SHA256.hexdigest (utf8 (dumps_call args kwargs))

/-- A concrete serialized-size function for evaluating the model: every value
pickles to 5 bytes. -/
def sz5 : Option Nat → Nat := fun _ => 5

/-- A concrete serialized-size function for evaluating the model: every value
pickles to 1 byte. -/
def sz1 : Option Nat → Nat := fun _ => 1

/-- A concrete serialized-size function for evaluating the model: every value
pickles to exactly half of the 1 MiB capacity of `MemoryCache.init _ 1`, so
that capacity holds exactly two entries. -/
def szHalfMb : Option Nat → Nat := fun _ => 524288

/-- Concrete run for claim C1: the same key set twice (each value of
serialized size 5) on a fresh 100 MB cache. -/
def c1_state : MemoryCache Nat :=
  (MemoryCache.init Nat 100).run sz5 [.set 0 "k" (some 1) 3600, .set 1 "k" (some 2) 3600]

/-- Concrete run for claim C2: keys "a", "b" inserted, then "a" overwritten,
on a fresh 100 MB cache with every value of serialized size 1. -/
def c2_state : MemoryCache Nat :=
  (MemoryCache.init Nat 100).run sz1
    [.set 0 "a" (some 1) 3600, .set 0 "b" (some 2) 3600, .set 0 "a" (some 3) 3600]

/-- Concrete run for claim C3: a 1 MiB cache holding exactly two half-MiB
entries "a" (long TTL) and "b" (already expired when the third insert comes),
then "c" inserted at time 10. -/
def c3_state : MemoryCache Nat :=
  (MemoryCache.init Nat 1).run szHalfMb
    [.set 0 "a" (some 1) 1000, .set 0 "b" (some 2) 0, .set 10 "c" (some 3) 1000]

/-- Concrete state for claim C4: one key stored at time 0 with TTL 100, so its
expiry timestamp is exactly 100. -/
def c4_state : MemoryCache Nat :=
  (MemoryCache.init Nat 1).set sz1 0 "k" (some 7) 100

/-- Sanity check of the SHA-256 embedding against the FIPS 180-4 test vector
for the empty message. -/
theorem sha256_empty_vector :
    SHA256.hexdigest (utf8 "") =
      "e3b0c44298fc1c149afbf4c8996fb92427ae41e4649b934ca495991b7852b855" := by
  decide

/-- Sanity check of the SHA-256 embedding against the FIPS 180-4 one-block
test vector "abc". -/
theorem sha256_abc_vector :
    SHA256.hexdigest (utf8 "abc") =
      "ba7816bf8f01cfea414140de5dae2223b00361a396177a9cb410ff61f20015ad" := by
  decide

/-- Sanity check of the SHA-256 embedding against the FIPS 180-4 two-block
test vector (56 bytes, so the padding spills into a second block). -/
theorem sha256_two_block_vector :
    SHA256.hexdigest (utf8 "abcdbcdecdefdefgefghfghighijhijkijkljklmklmnlmnomnopnopq") =
      "248d6a61d20638b8e5c026930c3e6039a33ce45964ff2167f6ecedd419db06c1" := by
  decide

/-- Sanity check of the JSON rendering: it reproduces `json.dumps` byte for
byte on a representative call. -/
theorem dumps_call_example :
    dumps_call [.str "x", .int 3] [("b", .int 2), ("a", .null)] =
      "\x7b\"args\": [\"x\", 3], \"kwargs\": \x7b\"a\": null, \"b\": 2\x7d\x7d" := by
  decide

namespace MemoryCache

variable {α : Type}

/-- Dict assignment always leaves the assigned key present, bound to the new
value and expiry. -/
theorem find?_dict_set (l : List (Entry α)) (k : String) (v : Option α) (e : Nat) :
    (dict_set l k v e).find? (fun x => x.key == k) = some ⟨k, v, e⟩ := by
  induction l with
  | nil => simp [dict_set]
  | cons x xs ih =>
    by_cases hx : x.key == k
    · simp [dict_set, hx]
    · simp [dict_set, hx, ih]

/-- Dict assignment of a present key keeps the key list unchanged; of a fresh
key appends it at the end. -/
theorem keys_dict_set (l : List (Entry α)) (k : String) (v : Option α) (e : Nat) :
    (dict_set l k v e).map (fun x => x.key) =
      if k ∈ l.map (fun x => x.key) then l.map (fun x => x.key)
      else l.map (fun x => x.key) ++ [k] := by
  induction l with
  | nil => simp [dict_set]
  | cons x xs ih =>
    by_cases hx : x.key == k
    · have hk : x.key = k := by simpa using hx
      simp [dict_set, hx, hk]
    · have hk : ¬ (k = x.key) := fun h => hx (by simp [h])
      by_cases hm : k ∈ xs.map (fun x => x.key)
      · simp [dict_set, hx, ih, hm, hk]
      · simp [dict_set, hx, ih, hm, hk]

/-- Dict assignment adds at most the new value's size to the stored total. -/
theorem sum_dict_set_le (sz : Option α → Nat) (l : List (Entry α)) (k : String)
    (v : Option α) (e : Nat) :
    ((dict_set l k v e).map (fun x => sz x.val)).sum ≤
      (l.map (fun x => sz x.val)).sum + sz v := by
  induction l with
  | nil => simp [dict_set]
  | cons x xs ih =>
    by_cases hx : x.key == k
    · simp [dict_set, hx]
      omega
    · simp only [dict_set, hx]
      simp only [Bool.false_eq_true, if_false, List.map_cons, List.sum_cons]
      omega

/-- A found entry plus the remaining entries after deleting its key is a
permutation of the dict, provided the dict keys are distinct. -/
theorem perm_find?_filter {l : List (Entry α)} {k : String} {e : Entry α}
    (hn : (l.map (fun x => x.key)).Nodup)
    (hf : l.find? (fun x => x.key == k) = some e) :
    List.Perm l (e :: l.filter (fun x => !(x.key == k))) := by
  induction l with
  | nil => simp at hf
  | cons x xs ih =>
    simp only [List.map_cons, List.nodup_cons] at hn
    by_cases hx : x.key == k
    · have hfc : List.find? (fun y => y.key == k) (x :: xs) = some x :=
        List.find?_cons_of_pos xs hx
      rw [hfc] at hf
      obtain rfl : x = e := by simpa using hf
      have hk : x.key = k := by simpa using hx
      have hrest : xs.filter (fun y => !(y.key == k)) = xs := by
        apply List.filter_eq_self.mpr
        intro y hy
        have : y.key ≠ k := by
          intro hyk
          exact hn.1 (by rw [hk, ← hyk]; exact List.mem_map_of_mem _ hy)
        simpa using this
      have hflt : (x :: xs).filter (fun y => !(y.key == k)) = xs := by
        rw [List.filter_cons_of_neg (by simpa using hx), hrest]
      rw [hflt]
    · have hfc : List.find? (fun y => y.key == k) (x :: xs) =
          List.find? (fun y => y.key == k) xs :=
        List.find?_cons_of_neg xs hx
      rw [hfc] at hf
      have hflt : (x :: xs).filter (fun y => !(y.key == k)) =
          x :: xs.filter (fun y => !(y.key == k)) :=
        List.filter_cons_of_pos (by simpa using hx)
      rw [hflt]
      exact ((ih hn.2 hf).cons x).trans (List.Perm.swap e x _)

/-- `delete` of an absent key is a no-op. -/
theorem delete_of_find_none {sz : Option α → Nat} {c : MemoryCache α} {k : String}
    (h : c.find k = none) : c.delete sz k = c := by
  simp [delete, h]

/-- `delete` of a present key: the cache is filtered and the found entry's
size subtracted. -/
theorem delete_of_find_some {sz : Option α → Nat} {c : MemoryCache α} {k : String}
    {e : Entry α} (h : c.find k = some e) :
    c.delete sz k =
      { c with
        cache := c.cache.filter (fun e' => !(e'.key == k)),
        current_size := c.current_size - (sz e.val : Int) } := by
  simp [delete, h]

/-- After `delete`, the key is gone from the dict. -/
theorem find_delete {sz : Option α → Nat} (c : MemoryCache α) (k : String) :
    (c.delete sz k).find k = none := by
  cases h : c.find k with
  | none => rw [delete_of_find_none h]; exact h
  | some e =>
    rw [delete_of_find_some h]
    simp only [find]
    apply List.find?_eq_none.mpr
    intro x hx
    have := (List.mem_filter.mp hx).2
    simpa using this

/-- `delete` preserves the size-accounting invariant. -/
theorem inv_delete {sz : Option α → Nat} {c : MemoryCache α} (k : String)
    (h : Inv sz c) : Inv sz (c.delete sz k) := by
  cases hf : c.find k with
  | none => rwa [delete_of_find_none hf]
  | some e =>
    rw [delete_of_find_some hf]
    have hperm := perm_find?_filter h.1 hf
    constructor
    · exact List.Nodup.sublist ((List.filter_sublist c.cache).map (fun x => x.key)) h.1
    · have hsum : (c.cache.map (fun x => sz x.val)).sum =
          sz e.val + ((c.cache.filter (fun x => !(x.key == k))).map
            (fun x => sz x.val)).sum := by
        simpa using (hperm.map (fun x => sz x.val)).sum_eq
      have hle := h.2
      simp only [MemoryCache.occupied] at hle ⊢
      omega

/-- `delete` of the head key of a dict with distinct keys removes exactly the
head entry and subtracts its size; capacity is untouched. -/
theorem delete_head {sz : Option α → Nat} {c : MemoryCache α} {e : Entry α}
    {rest : List (Entry α)} (hc : c.cache = e :: rest)
    (hn : (c.cache.map (fun x => x.key)).Nodup) :
    c.delete sz e.key =
      { c with cache := rest, current_size := c.current_size - (sz e.val : Int) } := by
  have hf : c.find e.key = some e := by
    simp only [find, hc]
    exact List.find?_cons_of_pos rest (by simp)
  rw [delete_of_find_some hf]
  rw [hc] at hn
  simp only [List.map_cons, List.nodup_cons] at hn
  have hrest : rest.filter (fun y => !(y.key == e.key)) = rest := by
    apply List.filter_eq_self.mpr
    intro y hy
    have : y.key ≠ e.key := by
      intro hyk
      exact hn.1 (hyk ▸ List.mem_map_of_mem _ hy)
    simpa using this
  have hflt : c.cache.filter (fun y => !(y.key == e.key)) = rest := by
    rw [hc, List.filter_cons_of_neg (by simp), hrest]
  rw [hflt]

/-- The eviction loop preserves the size-accounting invariant. -/
theorem inv_evict_fuel {sz : Option α → Nat} (fuel : Nat) (c : MemoryCache α)
    (ns : Nat) (h : Inv sz c) : Inv sz (evict_fuel sz fuel c ns) := by
  induction fuel generalizing c with
  | zero => exact h
  | succ f ih =>
    cases hc : c.cache with
    | nil =>
      simp only [evict_fuel, hc]
      exact h
    | cons x xs =>
      simp only [evict_fuel, hc]
      split
      · exact ih _ (inv_delete _ h)
      · exact h

/-- `set` preserves the size-accounting invariant. -/
theorem inv_set {sz : Option α → Nat} (c : MemoryCache α) (now : Nat) (k : String)
    (v : Option α) (ttl : Nat) (h : Inv sz c) : Inv sz (c.set sz now k v ttl) := by
  have h1 : Inv sz (c.evict_if_needed sz (sz v)) :=
    inv_evict_fuel _ _ _ h
  constructor
  · simp only [set, keys_dict_set]
    split
    · exact h1.1
    · simp only [List.nodup_append, List.nodup_cons, List.not_mem_nil,
        not_false_iff, List.nodup_nil, and_true, true_and]
      constructor
      · exact h1.1
      · intro a ha hak
        rename_i hnotmem
        simp only [List.mem_singleton] at hak
        exact hnotmem (hak ▸ ha)
  · have hle := h1.2
    have hsum := sum_dict_set_le sz (c.evict_if_needed sz (sz v)).cache k v (now + ttl)
    simp only [set, MemoryCache.occupied] at hle hsum ⊢
    omega

/-- `get` (including its lazy expiry removal) preserves the invariant. -/
theorem inv_get {sz : Option α → Nat} (c : MemoryCache α) (now : Nat) (k : String)
    (h : Inv sz c) : Inv sz ((c.get sz now k).2) := by
  cases hf : c.find k with
  | none =>
    simp only [get, hf]
    exact h
  | some e =>
    simp only [get, hf]
    split
    · exact inv_delete _ h
    · exact h

/-- `clear` trivially re-establishes the invariant. -/
theorem inv_clear {sz : Option α → Nat} (c : MemoryCache α) : Inv sz c.clear := by
  constructor <;> simp [clear, MemoryCache.occupied]

/-- Every single operation preserves the invariant. -/
theorem inv_step {sz : Option α → Nat} (c : MemoryCache α) (op : Op α)
    (h : Inv sz c) : Inv sz (c.step sz op) := by
  cases op with
  | set now k v ttl => exact inv_set c now k v ttl h
  | get now k => exact inv_get c now k h
  | del k => exact inv_delete k h
  | clear => exact inv_clear c

/-- Every sequence of operations preserves the invariant. -/
theorem inv_run {sz : Option α → Nat} (c : MemoryCache α) (ops : List (Op α))
    (h : Inv sz c) : Inv sz (c.run sz ops) := by
  induction ops generalizing c with
  | nil => exact h
  | cons op rest ih => exact ih _ (inv_step c op h)

/-- A fresh `MemoryCache` satisfies the invariant. -/
theorem inv_init (α : Type) (sz : Option α → Nat) (mb : Nat) :
    Inv sz (MemoryCache.init α mb) := by
  constructor <;> simp [MemoryCache.init, MemoryCache.occupied]

/-- The eviction loop deletes oldest-inserted entries first, so the surviving
entries are a suffix of the insertion-ordered dict; the capacity field is
untouched; and the loop only stops once there is room or the dict is empty. -/
theorem evict_fuel_spec {sz : Option α → Nat} (fuel : Nat) (c : MemoryCache α)
    (ns : Nat) (hn : (c.cache.map (fun x => x.key)).Nodup)
    (hf : c.cache.length ≤ fuel) :
    (evict_fuel sz fuel c ns).cache <:+ c.cache ∧
    (evict_fuel sz fuel c ns).max_size_bytes = c.max_size_bytes ∧
    ((evict_fuel sz fuel c ns).cache = [] ∨
      (evict_fuel sz fuel c ns).current_size + (ns : Int) ≤
        ((evict_fuel sz fuel c ns).max_size_bytes : Int)) := by
  induction fuel generalizing c with
  | zero =>
    have hnil : c.cache = [] := List.length_eq_zero.mp (Nat.le_zero.mp hf)
    exact ⟨List.suffix_refl _, rfl, Or.inl hnil⟩
  | succ f ih =>
    cases hc : c.cache with
    | nil =>
      have he : evict_fuel sz (f + 1) c ns = c := by simp only [evict_fuel, hc]
      rw [he]
      exact ⟨by rw [hc], rfl, Or.inl hc⟩
    | cons x xs =>
      simp only [evict_fuel, hc]
      by_cases hcond : (c.max_size_bytes : Int) < c.current_size + (ns : Int)
      · rw [if_pos hcond]
        have hdel : c.delete sz x.key =
            { c with cache := xs, current_size := c.current_size - (sz x.val : Int) } :=
          delete_head hc hn
        have hn' : (((c.delete sz x.key).cache).map (fun y => y.key)).Nodup := by
          rw [hdel]
          rw [hc] at hn
          exact (List.nodup_cons.mp (by simpa using hn)).2
        have hlen : (c.delete sz x.key).cache.length ≤ f := by
          rw [hdel]
          rw [hc] at hf
          simpa using Nat.lt_succ_iff.mp (Nat.lt_of_lt_of_le (Nat.lt_succ_self _) hf)
        obtain ⟨hsuf, hmax, hexit⟩ := ih (c.delete sz x.key) hn' hlen
        refine ⟨?_, ?_, hexit⟩
        · refine hsuf.trans ?_
          rw [hdel]
          exact List.suffix_cons x xs
        · rw [hmax, hdel]
      · rw [if_neg hcond]
        exact ⟨by rw [hc], rfl, Or.inr (by omega)⟩

/-- When there is already room, the eviction loop does nothing. -/
theorem evict_fuel_noop {sz : Option α → Nat} (fuel : Nat) (c : MemoryCache α)
    (ns : Nat) (h : ¬ (c.max_size_bytes : Int) < c.current_size + (ns : Int)) :
    evict_fuel sz fuel c ns = c := by
  cases fuel with
  | zero => rfl
  | succ f =>
    cases hc : c.cache with
    | nil => simp only [evict_fuel, hc]
    | cons x xs =>
      simp only [evict_fuel, hc]
      rw [if_neg h]

/-- The dict contents `set` leaves behind, by definition. -/
theorem set_cache (sz : Option α → Nat) (c : MemoryCache α) (now : Nat) (k : String)
    (v : Option α) (ttl : Nat) :
    (c.set sz now k v ttl).cache =
      dict_set (c.evict_if_needed sz (sz v)).cache k v (now + ttl) := rfl

/-- The running total `set` leaves behind, by definition: the new size is
added on top of whatever survived eviction (nothing is subtracted for an
overwritten entry). -/
theorem set_size (sz : Option α → Nat) (c : MemoryCache α) (now : Nat) (k : String)
    (v : Option α) (ttl : Nat) :
    (c.set sz now k v ttl).current_size =
      (c.evict_if_needed sz (sz v)).current_size + (sz v : Int) := rfl

/-- After `set`, the inserted key is present with the new value and the expiry
`now + ttl`; in particular `set` never evicts the entry it is inserting. -/
theorem find_set (sz : Option α → Nat) (c : MemoryCache α) (now : Nat) (k : String)
    (v : Option α) (ttl : Nat) :
    (c.set sz now k v ttl).find k = some ⟨k, v, now + ttl⟩ := by
  rw [find, set_cache]
  exact find?_dict_set _ _ _ _

/-- A `get` of a key within its TTL window returns the value stored by the
most recent `set` of that key and leaves the store unchanged. -/
theorem get_set_self (sz : Option α → Nat) (c : MemoryCache α) (now now' : Nat)
    (k : String) (v : Option α) (ttl : Nat) (h : now' ≤ now + ttl) :
    (c.set sz now k v ttl).get sz now' k = (v, c.set sz now k v ttl) := by
  have hfind := find_set sz c now k v ttl
  have hexp : (c.set sz now k v ttl).is_expired now' k = false := by
    simp only [is_expired, hfind]
    simpa using Nat.not_lt.mpr h
  simp [get, hfind, hexp]

end MemoryCache

/-- `redis_set` leaves the assigned key present with the new value and
expiry. -/
theorem find?_redis_set {α : Type} (st : List (RedisEntry α)) (k : String)
    (v : Option α) (e : Nat) :
    (redis_set st k v e).find? (fun x => x.key == k) = some ⟨k, v, e⟩ := by
  induction st with
  | nil => simp [redis_set]
  | cons x xs ih =>
    by_cases hx : x.key == k
    · simp [redis_set, hx]
    · simp [redis_set, hx, ih]

/-- C1: the claimed invariant "`current_size` exactly equals the sum of the
currently-stored entries' serialized sizes after every operation sequence" is
violated by the code at the failing input of two `set` calls on the same key
(each value of serialized size 5): `set` adds the new size without removing
the overwritten entry's contribution, leaving `current_size = 10` while the
single stored entry sums to 5. -/
theorem c1_overwrite_size_mismatch :
    c1_state.current_size = 10 ∧ MemoryCache.occupied sz5 c1_state = 5 ∧
      ¬ c1_state.current_size = (MemoryCache.occupied sz5 c1_state : Int) := by
  decide

/-- C2 counterexample: insert "a", insert "b", then `set` "a" again (every
value of serialized size 1). The claim predicts key order `["b", "a"]` (the
overwritten key moves to the most-recent insertion position) with
`current_size = 2` (old size removed first); the code actually leaves key
order `["a", "b"]` and `current_size = 3`. -/
theorem c2_counterexample :
    c2_state.cache.map (fun e => e.key) = ["a", "b"] ∧ c2_state.current_size = 3 ∧
      ¬ (c2_state.cache.map (fun e => e.key) = ["b", "a"] ∧
        c2_state.current_size = 2) := by
  decide

/-- C2 amended: when `set` overwrites an already-present key without
triggering eviction, the dict's key order is unchanged — the entry keeps its
original insertion-order position (it does not become the last eviction
candidate) — and the new entry's size is added to `current_size` without the
old entry's contribution being removed first. -/
theorem c2_amended_overwrite_keeps_position {α : Type} (sz : Option α → Nat)
    (c : MemoryCache α) (now : Nat) (k : String) (v : Option α) (ttl : Nat)
    (hmem : k ∈ c.cache.map (fun e => e.key))
    (hroom : c.current_size + (sz v : Int) ≤ (c.max_size_bytes : Int)) :
    (c.set sz now k v ttl).cache.map (fun e => e.key) =
        c.cache.map (fun e => e.key) ∧
      (c.set sz now k v ttl).current_size = c.current_size + (sz v : Int) := by
  have hno : c.evict_if_needed sz (sz v) = c :=
    MemoryCache.evict_fuel_noop _ _ _ (by omega)
  constructor
  · rw [MemoryCache.set_cache, hno, MemoryCache.keys_dict_set, if_pos hmem]
  · rw [MemoryCache.set_size, hno]

/-- C2 amended, witnessed at a concrete input: with "a" and "b" stored (sizes
1 each, ample capacity), overwriting "a" keeps the key order `["a", "b"]` and
raises `current_size` from 2 to 3. -/
theorem c2_amended_witness :
    (((MemoryCache.init Nat 100).run sz1
        [.set 0 "a" (some 1) 3600, .set 0 "b" (some 2) 3600]).set sz1 0 "a"
          (some 3) 3600).cache.map (fun e => e.key) =
      ((MemoryCache.init Nat 100).run sz1
        [.set 0 "a" (some 1) 3600, .set 0 "b" (some 2) 3600]).cache.map
          (fun e => e.key) ∧
    (((MemoryCache.init Nat 100).run sz1
        [.set 0 "a" (some 1) 3600, .set 0 "b" (some 2) 3600]).set sz1 0 "a"
          (some 3) 3600).current_size =
      ((MemoryCache.init Nat 100).run sz1
        [.set 0 "a" (some 1) 3600, .set 0 "b" (some 2) 3600]).current_size +
        (sz1 (some 3) : Int) :=
  c2_amended_overwrite_keeps_position sz1 _ 0 "a" (some 3) 3600 (by decide)
    (by decide)

/-- C3: capacity eviction is FIFO and never touches the entry being inserted.
First conjunct: under distinct dict keys, `_evict_if_needed` removes
oldest-inserted entries first (the survivors are a suffix of the
insertion-ordered dict — TTLs are never consulted) and stops only once there
is room or the store is empty. Second conjunct: after `set`, the inserted key
is always present (it is never evicted to make room for itself). Third
conjunct: on a store whose capacity holds exactly two fixed-size entries
("a" oldest, "b" already expired), inserting a third entry "c" evicts "a",
the first-inserted entry, not "b". -/
theorem c3_fifo_eviction {α : Type} (sz : Option α → Nat) :
    (∀ (c : MemoryCache α) (ns : Nat), (c.cache.map (fun e => e.key)).Nodup →
      ((c.evict_if_needed sz ns).cache <:+ c.cache ∧
        ((c.evict_if_needed sz ns).cache = [] ∨
          (c.evict_if_needed sz ns).current_size + (ns : Int) ≤
            ((c.evict_if_needed sz ns).max_size_bytes : Int)))) ∧
    (∀ (c : MemoryCache α) (now : Nat) (k : String) (v : Option α) (ttl : Nat),
      (c.set sz now k v ttl).find k = some ⟨k, v, now + ttl⟩) ∧
    c3_state.cache.map (fun e => e.key) = ["b", "c"] := by
  refine ⟨?_, ?_, by decide⟩
  · intro c ns hn
    obtain ⟨h1, hmax, h3⟩ := MemoryCache.evict_fuel_spec c.cache.length c ns hn
      (Nat.le_refl _)
    exact ⟨h1, h3⟩
  · intro c now k v ttl
    exact MemoryCache.find_set sz c now k v ttl

/-- C3, witnessed at a concrete input: evicting on the two-entry half-MiB
store from the C3 scenario. -/
theorem c3_witness :
    ((((MemoryCache.init Nat 1).run szHalfMb
          [.set 0 "a" (some 1) 1000, .set 0 "b" (some 2) 0]).evict_if_needed
            szHalfMb 524288).cache <:+
        ((MemoryCache.init Nat 1).run szHalfMb
          [.set 0 "a" (some 1) 1000, .set 0 "b" (some 2) 0]).cache ∧
      ((((MemoryCache.init Nat 1).run szHalfMb
          [.set 0 "a" (some 1) 1000, .set 0 "b" (some 2) 0]).evict_if_needed
            szHalfMb 524288).cache = [] ∨
        (((MemoryCache.init Nat 1).run szHalfMb
          [.set 0 "a" (some 1) 1000, .set 0 "b" (some 2) 0]).evict_if_needed
            szHalfMb 524288).current_size + ((524288 : Nat) : Int) ≤
          ((((MemoryCache.init Nat 1).run szHalfMb
            [.set 0 "a" (some 1) 1000, .set 0 "b" (some 2) 0]).evict_if_needed
              szHalfMb 524288).max_size_bytes : Int))) :=
  (c3_fifo_eviction szHalfMb).1 _ 524288 (by decide)

/-- C4 counterexample: the single entry of `c4_state` has expiry timestamp
exactly 100, and a `get` issued at time 100 — the expiry timestamp being "at
or before now" — returns the stored value instead of treating the entry as
absent, because `_is_expired` tests `now > expiry` strictly. -/
theorem c4_counterexample :
    (c4_state.get sz1 100 "k").1 = some 7 ∧
      ¬ (c4_state.get sz1 100 "k").1 = none := by
  decide

/-- C4 amended: for a stored entry, a `get` issued while `now` is at or
before the expiry timestamp returns the stored value and leaves the store
unchanged; a `get` issued strictly after the expiry timestamp returns absent,
removes the entry, and subtracts its serialized size from `current_size`. -/
theorem c4_amended_lazy_expiry {α : Type} (sz : Option α → Nat)
    (c : MemoryCache α) (now : Nat) (k : String) (e : Entry α)
    (hf : c.find k = some e) :
    (now ≤ e.exp → c.get sz now k = (e.val, c)) ∧
    (e.exp < now →
      (c.get sz now k).1 = none ∧
      ((c.get sz now k).2).find k = none ∧
      ((c.get sz now k).2).current_size = c.current_size - (sz e.val : Int)) := by
  constructor
  · intro hle
    have hexp : c.is_expired now k = false := by
      simp only [MemoryCache.is_expired, hf]
      simpa using Nat.not_lt.mpr hle
    simp [MemoryCache.get, hf, hexp]
  · intro hlt
    have hexp : c.is_expired now k = true := by
      simp only [MemoryCache.is_expired, hf]
      simpa using hlt
    have hget : c.get sz now k = (none, c.delete sz k) := by
      simp [MemoryCache.get, hf, hexp]
    rw [hget]
    refine ⟨rfl, MemoryCache.find_delete c k, ?_⟩
    rw [MemoryCache.delete_of_find_some hf]

/-- C4 amended, witnessed at concrete inputs: on `c4_state` (expiry 100), a
`get` at time 50 returns the stored value, and a `get` at time 101 returns
absent, removes the entry, and subtracts its size. -/
theorem c4_amended_witness :
    c4_state.get sz1 50 "k" = (some 7, c4_state) ∧
      ((c4_state.get sz1 101 "k").1 = none ∧
        ((c4_state.get sz1 101 "k").2).find "k" = none ∧
        ((c4_state.get sz1 101 "k").2).current_size =
          c4_state.current_size - (sz1 (some 7) : Int)) :=
  ⟨(c4_amended_lazy_expiry sz1 c4_state 50 "k" ⟨"k", some 7, 100⟩
      (by decide)).1 (by decide),
    (c4_amended_lazy_expiry sz1 c4_state 101 "k" ⟨"k", some 7, 100⟩
      (by decide)).2 (by decide)⟩

/-- C8: after any sequence of `set`, `get` (with its lazy expiry removal),
`delete` and `clear` operations on a freshly constructed `MemoryCache`, the
tracked occupied-byte total `current_size` is never negative (it always
dominates the non-negative sum of the stored entries' sizes). -/
theorem c8_current_size_never_negative {α : Type} (sz : Option α → Nat)
    (mb : Nat) (ops : List (Op α)) :
    0 ≤ ((MemoryCache.init α mb).run sz ops).current_size := by
  have h := MemoryCache.inv_run (MemoryCache.init α mb) ops
    (MemoryCache.inv_init α sz mb)
  exact le_trans (Int.natCast_nonneg _) h.2

/-- C5: `CacheManager.get` and `CacheManager.set` never propagate an
exception raised by the wrapped backend call: when the call fails, `get`
returns absent and `set` completes, and in each case exactly the `errors`
counter increases by 1 while `hits`, `misses` and `sets` are unchanged. (The
embedded `get`/`set` are total functions of the backend outcome: the
exception is absorbed, never re-raised.) -/
theorem c5_manager_swallows_backend_errors {α : Type} (e : String) (s : Stats) :
    (CacheManager.get (Except.error e) s : Option α × Stats) =
        (none, ⟨s.hits, s.misses, s.sets, s.errors + 1⟩) ∧
      CacheManager.set (Except.error e) s =
        ⟨s.hits, s.misses, s.sets, s.errors + 1⟩ :=
  ⟨rfl, rfl⟩

/-- C9: when no L2 tier is configured (`l2 = None`), `HybridCache.exists`
returns the boolean `True` exactly when the key is present and unexpired in
L1, but otherwise returns Python `None` — a falsy non-boolean value — rather
than the boolean `False`. -/
theorem c9_exists_returns_none {α : Type} (h : HybridCache α) (now : Nat)
    (k : String) (hl2 : h.l2 = none) :
    (h.l1.exists' now k = true → h.exists' now k = .pyBool true) ∧
    (h.l1.exists' now k = false → h.exists' now k = .pyNone) ∧
    PyRet.pyNone ≠ PyRet.pyBool false ∧ PyRet.pyNone.truthy = false := by
  refine ⟨?_, ?_, by decide, rfl⟩
  · intro hex
    simp [HybridCache.exists', hex]
  · intro hex
    simp [HybridCache.exists', hex, hl2]

/-- C9, witnessed at a concrete input: on an empty L1 with no L2, `exists`
returns `None`. -/
theorem c9_witness :
    (⟨MemoryCache.init Nat 1, none⟩ : HybridCache Nat).exists' 0 "k" =
      PyRet.pyNone :=
  (c9_exists_returns_none ⟨MemoryCache.init Nat 1, none⟩ 0 "k" rfl).2.1 (by decide)

/-- C10: storing the Python value `None` is indistinguishable from absence
through `get`: after `set k None ttl` on a `MemoryCache` or a `HybridCache`,
`get k` returns `None` at every later (or earlier) time, exactly as for a
missing key, and `CacheManager.get` counts a backend result of `None` as a
miss — `misses` is incremented, `hits` is not. -/
theorem c10_stored_none_reads_as_miss {α : Type} (sz : Option α → Nat) :
    (∀ (c : MemoryCache α) (now now' : Nat) (k : String) (ttl : Nat),
      ((c.set sz now k none ttl).get sz now' k).1 = none) ∧
    (∀ (h : HybridCache α) (now now' : Nat) (k : String) (ttl : Nat),
      ((h.set sz now k none ttl).get sz now' k).1 = none) ∧
    (∀ (s : Stats),
      CacheManager.get (Except.ok (none : Option α)) s =
        (none, ⟨s.hits, s.misses + 1, s.sets, s.errors⟩)) := by
  have hmem : ∀ (c : MemoryCache α) (now now' : Nat) (k : String) (ttl : Nat),
      ((c.set sz now k none ttl).get sz now' k).1 = none := by
    intro c now now' k ttl
    have hfind := MemoryCache.find_set sz c now k none ttl
    by_cases hexp : (c.set sz now k none ttl).is_expired now' k
    · simp [MemoryCache.get, hfind, hexp]
    · simp [MemoryCache.get, hfind, hexp]
  refine ⟨hmem, ?_, fun s => rfl⟩
  intro h now now' k ttl
  have h1 := hmem h.l1 now now' k ttl
  cases hl2 : h.l2 with
  | none => simp [HybridCache.get, HybridCache.set, hl2, h1]
  | some st =>
    have hrg : redis_get (redis_set st k none (now + ttl)) now' k = none := by
      simp [redis_get, find?_redis_set]
    simp [HybridCache.get, HybridCache.set, hl2, h1, hrg]

/-- C7: TieredStore read-through. After `set k v` wrote both tiers and `k` is
then removed from L1 only (L2 untouched, and `now1` still within the L2
entry's TTL window), `get k` returns `v` again and repopulates L1 (with the
default TTL 3600), so that an immediately following `get` against the
resulting L1 alone also returns `v`. -/
theorem c7_read_through {α : Type} (sz : Option α → Nat) (h0 : HybridCache α)
    (st : List (RedisEntry α)) (hl2 : h0.l2 = some st)
    (now0 now1 : Nat) (k : String) (x : α) (ttl : Nat)
    (httl : now1 < now0 + ttl) (he : HybridCache α)
    (hev : he = ⟨(HybridCache.set sz h0 now0 k (some x) ttl).l1.delete sz k,
      (HybridCache.set sz h0 now0 k (some x) ttl).l2⟩) :
    (he.get sz now1 k).1 = some x ∧
      (((he.get sz now1 k).2.l1).get sz now1 k).1 = some x := by
  subst hev
  have hfind : ((HybridCache.set sz h0 now0 k (some x) ttl).l1.delete sz k).find k =
      none := MemoryCache.find_delete _ k
  have hl1get : ((HybridCache.set sz h0 now0 k (some x) ttl).l1.delete sz k).get sz
        now1 k =
      (none, (HybridCache.set sz h0 now0 k (some x) ttl).l1.delete sz k) := by
    simp [MemoryCache.get, hfind]
  have hl2' : (HybridCache.set sz h0 now0 k (some x) ttl).l2 =
      some (redis_set st k (some x) (now0 + ttl)) := by
    simp [HybridCache.set, hl2]
  have hrg : redis_get (redis_set st k (some x) (now0 + ttl)) now1 k = some x := by
    simp [redis_get, find?_redis_set, httl]
  constructor
  · simp [HybridCache.get, hl1get, hl2', hrg]
  · simp only [HybridCache.get, hl1get, hl2', hrg]
    rw [MemoryCache.get_set_self sz _ now1 now1 k (some x) 3600 (by omega)]

/-- C7, witnessed at a concrete input: one key set at time 0 with TTL 10 on
an empty hybrid store, removed from L1 only, then read at time 5. -/
theorem c7_witness :
    ((⟨(HybridCache.set sz1 ⟨MemoryCache.init Nat 1, some []⟩ 0 "k" (some 42)
            10).l1.delete sz1 "k",
        (HybridCache.set sz1 ⟨MemoryCache.init Nat 1, some []⟩ 0 "k" (some 42)
            10).l2⟩ : HybridCache Nat).get sz1 5 "k").1 = some 42 ∧
      ((((⟨(HybridCache.set sz1 ⟨MemoryCache.init Nat 1, some []⟩ 0 "k" (some 42)
            10).l1.delete sz1 "k",
        (HybridCache.set sz1 ⟨MemoryCache.init Nat 1, some []⟩ 0 "k" (some 42)
            10).l2⟩ : HybridCache Nat).get sz1 5 "k").2.l1).get sz1 5 "k").1 =
        some 42 :=
  c7_read_through sz1 ⟨MemoryCache.init Nat 1, some []⟩ [] rfl 0 5 "k" 42 10
    (by decide) _ rfl

/-- `chars_lt` is asymmetric. -/
theorem chars_lt_asymm : ∀ {l1 l2 : List Char}, chars_lt l1 l2 = true →
    chars_lt l2 l1 = false
  | [], [], h => by simp [chars_lt] at h
  | [], _ :: _, _ => rfl
  | _ :: _, [], h => by simp [chars_lt] at h
  | a :: as, b :: bs, h => by
    simp only [chars_lt] at h ⊢
    by_cases hab : a < b
    · rw [if_neg (lt_asymm hab), if_pos hab]
    · by_cases hba : b < a
      · rw [if_neg hab, if_pos hba] at h
        exact absurd h (by simp)
      · rw [if_neg hab, if_neg hba] at h
        rw [if_neg hba, if_neg hab]
        exact chars_lt_asymm h

/-- `chars_lt` is transitive. -/
theorem chars_lt_trans : ∀ {l1 l2 l3 : List Char}, chars_lt l1 l2 = true →
    chars_lt l2 l3 = true → chars_lt l1 l3 = true
  | _, [], [], _, h23 => by simp [chars_lt] at h23
  | _, _ :: _, [], _, h23 => by simp [chars_lt] at h23
  | [], _, _ :: _, _, _ => rfl
  | _ :: _, [], _, h12, _ => by simp [chars_lt] at h12
  | a :: as, b :: bs, c :: cs, h12, h23 => by
    simp only [chars_lt] at h12 h23 ⊢
    by_cases hab : a < b
    · by_cases hbc : b < c
      · rw [if_pos (lt_trans hab hbc)]
      · by_cases hcb : c < b
        · rw [if_neg hbc, if_pos hcb] at h23
          exact absurd h23 (by simp)
        · have hbceq : b = c := le_antisymm (not_lt.mp hcb) (not_lt.mp hbc)
          have hac : a < c := by rw [← hbceq]; exact hab
          rw [if_pos hac]
    · by_cases hba : b < a
      · rw [if_neg hab, if_pos hba] at h12
        exact absurd h12 (by simp)
      · have habeq : a = b := le_antisymm (not_lt.mp hba) (not_lt.mp hab)
        rw [if_neg hab, if_neg hba] at h12
        by_cases hbc : b < c
        · have hac : a < c := by rw [habeq]; exact hbc
          rw [if_pos hac]
        · by_cases hcb : c < b
          · rw [if_neg hbc, if_pos hcb] at h23
            exact absurd h23 (by simp)
          · have hbceq : b = c := le_antisymm (not_lt.mp hcb) (not_lt.mp hbc)
            rw [if_neg hbc, if_neg hcb] at h23
            subst habeq
            subst hbceq
            rw [if_neg (lt_irrefl a), if_neg (lt_irrefl a)]
            exact chars_lt_trans h12 h23

/-- Two lists neither of which is `chars_lt`-below the other are equal. -/
theorem chars_lt_connex : ∀ {l1 l2 : List Char}, chars_lt l1 l2 = false →
    chars_lt l2 l1 = false → l1 = l2
  | [], [], _, _ => rfl
  | [], _ :: _, h12, _ => by simp [chars_lt] at h12
  | _ :: _, [], _, h21 => by simp [chars_lt] at h21
  | a :: as, b :: bs, h12, h21 => by
    simp only [chars_lt] at h12 h21
    by_cases hab : a < b
    · rw [if_pos hab] at h12
      exact absurd h12 (by simp)
    · by_cases hba : b < a
      · rw [if_pos hba] at h21
        exact absurd h21 (by simp)
      · have habeq : a = b := le_antisymm (not_lt.mp hba) (not_lt.mp hab)
        rw [if_neg hab, if_neg hba] at h12
        rw [if_neg hba, if_neg hab] at h21
        rw [habeq, chars_lt_connex h12 h21]

/-- Sorting keyword pairs is invariant under permutation when the keyword
names are distinct (as they always are for a Python keyword dict): both sorts
are sorted permutations of the same list and the keys strictly increase. -/
theorem sortPairs_eq_of_perm {l1 l2 : List (String × PyArg)}
    (hp : List.Perm l1 l2) (hn : (l1.map Prod.fst).Nodup) :
    sortPairs l1 = sortPairs l2 := by
  haveI htot : IsTotal (String × PyArg) key_le := by
    constructor
    intro a b
    cases hx : chars_lt b.1.data a.1.data
    · exact Or.inl hx
    · exact Or.inr (chars_lt_asymm hx)
  haveI htr : IsTrans (String × PyArg) key_le := by
    constructor
    intro a b c h1 h2
    have h1' : chars_lt b.1.data a.1.data = false := h1
    have h2' : chars_lt c.1.data b.1.data = false := h2
    show chars_lt c.1.data a.1.data = false
    cases hx : chars_lt c.1.data a.1.data
    · rfl
    · cases hbc : chars_lt b.1.data c.1.data
      · have heq := chars_lt_connex hbc h2'
        rw [heq] at h1'
        rw [h1'] at hx
        exact hx.symm
      · have := chars_lt_trans hbc hx
        rw [this] at h1'
        exact h1'
  have hperm1 : List.Perm (sortPairs l1) l1 := List.perm_insertionSort key_le l1
  have hperm2 : List.Perm (sortPairs l2) l2 := List.perm_insertionSort key_le l2
  have hps : List.Perm (sortPairs l1) (sortPairs l2) :=
    hperm1.trans (hp.trans hperm2.symm)
  have hs1 : List.Sorted key_le (sortPairs l1) := List.sorted_insertionSort key_le l1
  have hs2 : List.Sorted key_le (sortPairs l2) := List.sorted_insertionSort key_le l2
  have hn1 : ((sortPairs l1).map Prod.fst).Nodup :=
    ((hperm1.map Prod.fst).nodup_iff).mpr hn
  have hn2 : ((sortPairs l2).map Prod.fst).Nodup :=
    ((hps.symm.map Prod.fst).nodup_iff).mpr hn1
  have hstrict : ∀ (l : List (String × PyArg)), List.Sorted key_le l →
      (l.map Prod.fst).Nodup →
      List.Sorted (fun a b : String × PyArg => chars_lt a.1.data b.1.data = true) l := by
    intro l hs hnd
    have hne : List.Pairwise (fun a b : String × PyArg => a.1 ≠ b.1) l :=
      List.pairwise_map.mp hnd
    refine (hs.and hne).imp ?_
    rintro a b ⟨hle, hnekey⟩
    have hle' : chars_lt b.1.data a.1.data = false := hle
    cases hx : chars_lt a.1.data b.1.data
    · exfalso
      apply hnekey
      have hdata : a.1.data = b.1.data := chars_lt_connex hx hle'
      have : a.1.toList = b.1.toList := hdata
      exact String.toList_inj.mp this
    · rfl
  haveI : IsAntisymm (String × PyArg)
      (fun a b : String × PyArg => chars_lt a.1.data b.1.data = true) := by
    constructor
    intro a b h1 h2
    have := chars_lt_asymm h1
    rw [this] at h2
    exact absurd h2 (by simp)
  exact List.eq_of_perm_of_sorted hps (hstrict _ hs1 hn1) (hstrict _ hs2 hn2)

/-- `create_key` only sees the keyword dict through its sorted rendering, so
permuting distinct keyword names cannot change the key. -/
theorem create_key_perm {args : List PyArg} {kw1 kw2 : List (String × PyArg)}
    (hp : List.Perm kw1 kw2) (hn : (kw1.map Prod.fst).Nodup) :
    CacheManager.create_key args kw1 = CacheManager.create_key args kw2 := by
  unfold CacheManager.create_key dumps_call
  rw [sortPairs_eq_of_perm hp hn]

/-- C6: `create_key` is deterministic (it is a function of its argument list
and keyword dict) and insensitive to the order in which distinct named
arguments are given — in particular `create_key(a=1, b=2)` equals
`create_key(b=2, a=1)` — while distinct argument sets yield different keys:
`create_key("x") ≠ create_key("y")`. -/
theorem c6_create_key_deterministic :
    (∀ (args : List PyArg) (kw1 kw2 : List (String × PyArg)),
      List.Perm kw1 kw2 → (kw1.map Prod.fst).Nodup →
        CacheManager.create_key args kw1 = CacheManager.create_key args kw2) ∧
    CacheManager.create_key [] [("a", .int 1), ("b", .int 2)] =
      CacheManager.create_key [] [("b", .int 2), ("a", .int 1)] ∧
    CacheManager.create_key [.str "x"] [] ≠ CacheManager.create_key [.str "y"] [] := by
  refine ⟨fun args kw1 kw2 hp hn => create_key_perm hp hn, by decide, by decide⟩

/-- C6, witnessed at a concrete input: the keyword order-insensitivity
conjunct applied to the two-keyword example. -/
theorem c6_witness :
    CacheManager.create_key [] [("a", PyArg.int 1), ("b", PyArg.int 2)] =
      CacheManager.create_key [] [("b", PyArg.int 2), ("a", PyArg.int 1)] :=
  c6_create_key_deterministic.1 [] _ _
    (List.Perm.swap ("b", PyArg.int 2) ("a", PyArg.int 1) []) (by decide)

end Cache
